import Mathlib

/-!
Verification of the `dynts` ordered, date-keyed numeric series store.

The development shallowly embeds the numpy backend (`dynts/backends/np.py`)
and the backend-independent operations of `dynts/api/timeseries.py`.

Keys are modelled as `Int` (an opaque, totally ordered, comparable type in
the spec; integers are such a type and every date key is an instant on a
totally ordered axis).  Values are modelled generically: a store is a list
of keys together with a row-major value matrix.  Claims about arithmetic
use exact rationals (`ℚ`); claims about missing data use `Option ℚ`, where
`none` plays the role of not-a-number (the one value that compares unequal
to itself in IEEE arithmetic, which is how the source tests for missing
observations with `v == v`).
-/

namespace Dynts

/-- A series store: the ordered key sequence (`_date` in the numpy backend)
and its aligned row-major value matrix (`_data`).  An empty store has both
lists empty (`_date is None` in the source). -/
structure TS (α : Type) where
  dates : List Int
  data  : List (List α)
  deriving Repr, DecidableEq

/-- Number of series (columns): `count() = shape[1]` in the source, which is
the common length of the matrix rows (`0` for an empty store). -/
def TS.width {α : Type} (ts : TS α) : Nat := (ts.data.headD []).length

/-- Well-formedness of a store with `w` columns: keys strictly increasing
(the spec's sortedness invariant), the matrix has one row per key, and every
row has `w` entries (the matrix is dense/rectangular). -/
def TS.Valid {α : Type} (ts : TS α) (w : Nat) : Prop :=
  List.Sorted (· < ·) ts.dates ∧ ts.data.length = ts.dates.length ∧
    ∀ r ∈ ts.data, r.length = w

/-- Row observation: the row stored at key `k`, scanning keys and rows in
parallel (`None` when the key is absent).  This is the obvious read-back of
the parallel `_date` / `_data` arrays. -/
def rowAt {α : Type} : List Int → List (List α) → Int → Option (List α)
  | _, [], _ => none
  | [], _, _ => none
  | d :: ds, r :: rs, k => if k = d then some r else rowAt ds rs k

/-- Modelled from the spec: `Skiplist.rank` (`dynts/lib`, not part of the
sources at hand).  Spec §4.1: if the key is present the zero-based index is
returned; if absent, a negative value encoding the insertion point as
`-(insertion_index) - 1`.  For a sorted key list the insertion index is the
number of keys smaller than the probe. -/
def rank (dates : List Int) (k : Int) : Int :=
  if k ∈ dates then (dates.indexOf k : Int)
  else -(dates.countP (fun d => decide (d < k)) : Int) - 1

/-- `Numpy.insert` (np.py lines 89-110).  An empty row is filtered out by the
`if len(values):` guard.  On an empty store the pair becomes the sole row.
Otherwise the skip index is ranked: a negative rank is decoded to the
insertion index `-1-index`, both backing arrays are grown by one and the tail
at or above that index is shifted up before writing (`List.insertIdx` is
exactly grow-and-shift); a non-negative rank overwrites the row in place. -/
def TS.insert {α : Type} (ts : TS α) (k : Int) (row : List α) : TS α :=
  if row.length = 0 then ts
  else if ts.dates.length = 0 then ⟨[k], [row]⟩
  else
    let r := rank ts.dates k
    if r < 0 then
      let idx := (-1 - r).toNat
      ⟨ts.dates.insertIdx idx k, ts.data.insertIdx idx row⟩
    else
      ⟨ts.dates.set r.toNat k, ts.data.set r.toNat row⟩

/-- A finite sequence of `insert` calls, applied first to last. -/
def TS.insertAll {α : Type} (ts : TS α) (ops : List (Int × List α)) : TS α :=
  ops.foldl (fun s p => s.insert p.1 p.2) ts

/-- The last-written row for key `k` in a sequence of insert calls. -/
def lastWritten {α : Type} (ops : List (Int × List α)) (k : Int) :
    Option (List α) :=
  ops.foldl (fun acc p => if p.1 = k then some p.2 else acc) none

section InsertLemmas

variable {α : Type}

theorem rowAt_data_nil (ds : List Int) (k : Int) :
    rowAt ds ([] : List (List α)) k = none := by
  cases ds <;> rfl

theorem rowAt_dates_nil (rs : List (List α)) (k : Int) :
    rowAt ([] : List Int) rs k = none := by
  cases rs <;> rfl

theorem rowAt_cons (d : Int) (ds : List Int) (r : List α) (rs : List (List α))
    (k : Int) :
    rowAt (d :: ds) (r :: rs) k = if k = d then some r else rowAt ds rs k := rfl

theorem rowAt_eq_none_of_not_mem (ds : List Int) (rs : List (List α)) (k : Int)
    (h : k ∉ ds) : rowAt ds rs k = none := by
  induction ds generalizing rs with
  | nil => exact rowAt_dates_nil rs k
  | cons d ds ih =>
    cases rs with
    | nil => exact rowAt_data_nil _ k
    | cons r rs =>
      have hkd : ¬ k = d := fun hk => h (by rw [hk]; exact List.mem_cons_self d ds)
      rw [rowAt_cons, if_neg hkd]
      exact ih rs fun hm => h (List.mem_cons_of_mem d hm)

theorem set_indexOf_self (l : List Int) (k : Int) (h : k ∈ l) :
    l.set (l.indexOf k) k = l := by
  induction l with
  | nil => rfl
  | cons a t ih =>
    by_cases hk : k = a
    · rw [List.indexOf_cons_eq _ hk.symm, List.set_cons_zero, hk]
    · rw [List.indexOf_cons_ne _ (fun h' => hk h'.symm), Nat.succ_eq_add_one,
        List.set_cons_succ, ih ((List.mem_cons.mp h).resolve_left hk)]

theorem rowAt_set (ds : List Int) (rs : List (List α)) (k : Int)
    (row : List α) (hlen : rs.length = ds.length) (hmem : k ∈ ds) (k' : Int) :
    rowAt ds (rs.set (ds.indexOf k) row) k' =
      if k' = k then some row else rowAt ds rs k' := by
  induction ds generalizing rs with
  | nil => cases hmem
  | cons d ds ih =>
    cases rs with
    | nil => cases hlen
    | cons r rs =>
      by_cases hk : k = d
      · rw [List.indexOf_cons_eq _ hk.symm, List.set_cons_zero, rowAt_cons,
          rowAt_cons]
        by_cases hk' : k' = k
        · rw [if_pos (hk'.trans hk), if_pos hk']
        · rw [if_neg (fun h' => hk' (h'.trans hk.symm)), if_neg hk',
            if_neg (fun h' => hk' (h'.trans hk.symm))]
      · rw [List.indexOf_cons_ne _ (fun h' => hk h'.symm), Nat.succ_eq_add_one,
          List.set_cons_succ, rowAt_cons, rowAt_cons]
        by_cases hk' : k' = d
        · have hne : ¬ k' = k := fun h' => hk (h'.symm.trans hk')
          rw [if_pos hk', if_neg hne, if_pos hk']
        · rw [if_neg hk', if_neg hk',
            ih rs (Nat.succ_injective hlen)
              ((List.mem_cons.mp hmem).resolve_left hk)]

theorem rowAt_insertIdx (ds : List Int) (rs : List (List α)) (m : Nat)
    (k : Int) (row : List α) (hm : m ≤ ds.length) (hlen : rs.length = ds.length)
    (hk : k ∉ ds) (k' : Int) :
    rowAt (ds.insertIdx m k) (rs.insertIdx m row) k' =
      if k' = k then some row else rowAt ds rs k' := by
  induction m generalizing ds rs with
  | zero => rw [List.insertIdx_zero, List.insertIdx_zero, rowAt_cons]
  | succ m ih =>
    cases ds with
    | nil => cases (Nat.not_succ_le_zero m hm)
    | cons d ds =>
      cases rs with
      | nil => cases hlen
      | cons r rs =>
        rw [List.insertIdx_succ_cons, List.insertIdx_succ_cons, rowAt_cons,
          rowAt_cons]
        by_cases hk' : k' = d
        · have hne : ¬ k' = k := fun h' =>
            hk (h' ▸ hk' ▸ List.mem_cons_self d ds)
          simp only [if_pos hk', if_neg hne]
        · simp only [if_neg hk']
          exact ih ds rs (Nat.le_of_succ_le_succ hm)
            (Nat.succ_injective hlen) (fun h' => hk (List.mem_cons_of_mem d h'))

theorem countP_lt_eq_zero (l : List Int) (k : Int)
    (h : ∀ x ∈ l, ¬ x < k) : l.countP (fun d => decide (d < k)) = 0 := by
  rw [List.countP_eq_zero]
  intro a ha
  simpa using h a ha

theorem sorted_insertIdx_countP (l : List Int) (k : Int)
    (hs : List.Sorted (· < ·) l) (hk : k ∉ l) :
    List.Sorted (· < ·)
      (l.insertIdx (l.countP (fun d => decide (d < k))) k) := by
  induction l with
  | nil => simp
  | cons a t ih =>
    have ha : ∀ x ∈ t, a < x := fun x hx => (List.sorted_cons.mp hs).1 x hx
    have hst : List.Sorted (· < ·) t := (List.sorted_cons.mp hs).2
    have hka : k ≠ a := fun h' => hk (h' ▸ List.mem_cons_self a t)
    rcases lt_trichotomy k a with hlt | heq | hgt
    · have h0 : (a :: t).countP (fun d => decide (d < k)) = 0 := by
        refine countP_lt_eq_zero _ _ ?_
        intro x hx
        rcases List.mem_cons.mp hx with h | h
        · subst h; exact not_lt_of_gt hlt
        · exact not_lt_of_gt (lt_trans hlt (ha x h))
      rw [h0, List.insertIdx_zero, List.sorted_cons]
      refine ⟨?_, hs⟩
      intro b hb
      rcases List.mem_cons.mp hb with h | h
      · subst h; exact hlt
      · exact lt_trans hlt (ha b h)
    · exact absurd heq hka
    · have hcnt : (a :: t).countP (fun d => decide (d < k)) =
          t.countP (fun d => decide (d < k)) + 1 := by
        rw [List.countP_cons]
        simp [hgt]
      rw [hcnt, List.insertIdx_succ_cons, List.sorted_cons]
      refine ⟨?_, ih hst (fun h' => hk (List.mem_cons_of_mem a h'))⟩
      intro b hb
      have := List.mem_insertIdx (List.countP_le_length _) |>.mp hb
      rcases this with h | h
      · subst h; exact hgt
      · exact ha b h

theorem insert_of_mem {α : Type} (ts : TS α) (k : Int) (row : List α)
    (hrow : ¬ row.length = 0) (hk : k ∈ ts.dates) :
    ts.insert k row = ⟨ts.dates, ts.data.set (ts.dates.indexOf k) row⟩ := by
  have hne : ¬ ts.dates.length = 0 := by
    intro h0
    rw [List.length_eq_zero] at h0
    rw [h0] at hk
    cases hk
  have hr : rank ts.dates k = (ts.dates.indexOf k : Int) := by
    unfold rank
    rw [if_pos hk]
  simp only [TS.insert, if_neg hrow, if_neg hne, hr, Int.toNat_natCast]
  rw [if_neg (not_lt.mpr (Int.natCast_nonneg (ts.dates.indexOf k))),
    set_indexOf_self ts.dates k hk]

theorem insert_of_not_mem {α : Type} (ts : TS α) (k : Int) (row : List α)
    (hrow : ¬ row.length = 0) (hne : ¬ ts.dates.length = 0)
    (hk : k ∉ ts.dates) :
    ts.insert k row =
      ⟨ts.dates.insertIdx (ts.dates.countP (fun d => decide (d < k))) k,
       ts.data.insertIdx (ts.dates.countP (fun d => decide (d < k))) row⟩ := by
  have hr : rank ts.dates k =
      -(ts.dates.countP (fun d => decide (d < k)) : Int) - 1 := by
    unfold rank
    rw [if_neg hk]
  have hlt : rank ts.dates k < 0 := by
    rw [hr]; omega
  have hidx : (-1 - rank ts.dates k).toNat =
      ts.dates.countP (fun d => decide (d < k)) := by
    rw [hr]; omega
  simp only [TS.insert, if_neg hrow, if_neg hne, if_pos hlt, hidx]

theorem insert_step {α : Type} (ts : TS α) (w : Nat) (k : Int) (row : List α)
    (hv : ts.Valid w) (hrow : row.length = w) (hw : 0 < w) :
    (ts.insert k row).Valid w ∧
    (∀ k', k' ∈ (ts.insert k row).dates ↔ k' = k ∨ k' ∈ ts.dates) ∧
    (∀ k', rowAt (ts.insert k row).dates (ts.insert k row).data k' =
      if k' = k then some row else rowAt ts.dates ts.data k') := by
  obtain ⟨hs, hlen, hrows⟩ := hv
  have hrow0 : ¬ row.length = 0 := by omega
  by_cases hne : ts.dates.length = 0
  · have hdates : ts.dates = [] := List.length_eq_zero.mp hne
    have hdata : ts.data = [] := by
      apply List.length_eq_zero.mp
      rw [hlen, hne]
    have hthis : ts.insert k row = ⟨[k], [row]⟩ := by
      simp only [TS.insert, if_neg hrow0, if_pos hne]
    rw [hthis]
    refine ⟨⟨?_, rfl, ?_⟩, ?_, ?_⟩
    · simp
    · intro r hr
      simp only [List.mem_singleton] at hr
      rw [hr, hrow]
    · intro k'
      rw [hdates]
      simp
    · intro k'
      rw [hdates, hdata, rowAt_cons]
  · by_cases hk : k ∈ ts.dates
    · rw [insert_of_mem ts k row hrow0 hk]
      refine ⟨⟨hs, ?_, ?_⟩, ?_, ?_⟩
      · rw [List.length_set, hlen]
      · intro r hr
        rcases List.mem_or_eq_of_mem_set hr with h | h
        · exact hrows r h
        · rw [h, hrow]
      · intro k'
        constructor
        · exact fun h => Or.inr h
        · intro h
          rcases h with h | h
          · rw [h]; exact hk
          · exact h
      · exact rowAt_set ts.dates ts.data k row hlen hk
    · rw [insert_of_not_mem ts k row hrow0 hne hk]
      have hcle : ts.dates.countP (fun d => decide (d < k)) ≤ ts.dates.length :=
        List.countP_le_length _
      have hcle2 : ts.dates.countP (fun d => decide (d < k)) ≤
          ts.data.length := by
        rw [hlen]; exact hcle
      refine ⟨⟨?_, ?_, ?_⟩, ?_, ?_⟩
      · exact sorted_insertIdx_countP ts.dates k hs hk
      · rw [List.length_insertIdx _ _ hcle2, List.length_insertIdx _ _ hcle,
          hlen]
      · intro r hr
        rcases (List.mem_insertIdx hcle2).mp hr with h | h
        · rw [h, hrow]
        · exact hrows r h
      · exact fun k' => List.mem_insertIdx hcle
      · exact rowAt_insertIdx ts.dates ts.data _ k row hcle hlen hk

theorem foldl_lastWritten_acc {α : Type} (ops : List (Int × List α))
    (k : Int) : ∀ (a : Option (List α)),
    ops.foldl (fun acc p => if p.1 = k then some p.2 else acc) a =
      (lastWritten ops k).elim a some := by
  induction ops with
  | nil => intro a; rfl
  | cons p rest ih =>
    intro a
    show rest.foldl _ (if p.1 = k then some p.2 else a) = _
    rw [ih]
    have hlw : lastWritten (p :: rest) k =
        (lastWritten rest k).elim (if p.1 = k then some p.2 else none) some := by
      show rest.foldl _ (if p.1 = k then some p.2 else none) = _
      rw [ih]
    rw [hlw]
    by_cases hpk : p.1 = k
    · simp only [if_pos hpk]
      cases lastWritten rest k <;> rfl
    · simp only [if_neg hpk]
      cases lastWritten rest k <;> rfl

theorem lastWritten_cons {α : Type} (p : Int × List α)
    (rest : List (Int × List α)) (k : Int) :
    lastWritten (p :: rest) k =
      (lastWritten rest k).elim (if p.1 = k then some p.2 else none) some := by
  show rest.foldl _ (if p.1 = k then some p.2 else none) = _
  rw [foldl_lastWritten_acc]

theorem insertAll_props {α : Type} (w : Nat) (hw : 0 < w) :
    ∀ (ops : List (Int × List α)) (ts : TS α), ts.Valid w →
      (∀ p ∈ ops, p.2.length = w) →
      (ts.insertAll ops).Valid w ∧
      (∀ k, k ∈ (ts.insertAll ops).dates ↔
        k ∈ ts.dates ∨ k ∈ ops.map Prod.fst) ∧
      (∀ k, rowAt (ts.insertAll ops).dates (ts.insertAll ops).data k =
        (lastWritten ops k).elim (rowAt ts.dates ts.data k) some) := by
  intro ops
  induction ops with
  | nil =>
    intro ts hv _
    exact ⟨hv, fun k => by simp [TS.insertAll], fun k => rfl⟩
  | cons p rest ih =>
    intro ts hv hops
    obtain ⟨hv', hmem', hrow'⟩ :=
      insert_step ts w p.1 p.2 hv (hops p (List.mem_cons_self p rest)) hw
    have hrest : ∀ q ∈ rest, q.2.length = w :=
      fun q hq => hops q (List.mem_cons_of_mem p hq)
    obtain ⟨hv'', hmem'', hrow''⟩ := ih (ts.insert p.1 p.2) hv' hrest
    have hall : ts.insertAll (p :: rest) = (ts.insert p.1 p.2).insertAll rest :=
      rfl
    refine ⟨hall ▸ hv'', ?_, ?_⟩
    · intro k
      rw [hall, hmem'' k, hmem' k, List.map_cons, List.mem_cons]
      tauto
    · intro k
      rw [hall, hrow'' k, lastWritten_cons]
      cases lastWritten rest k with
      | none =>
        by_cases hpk : p.1 = k
        · show rowAt _ _ k = _
          rw [hrow' k, if_pos hpk.symm, if_pos hpk]
          rfl
        · show rowAt _ _ k = _
          rw [hrow' k, if_neg (fun h => hpk h.symm), if_neg hpk]
          rfl
      | some r => rfl

end InsertLemmas

/-- C1: starting from any valid store (in particular the empty one) and
performing any finite sequence of `insert(key, row)` calls with non-empty
rows in arbitrary key order, the final `dates()` sequence is strictly
ascending and contains exactly the inserted keys together with the store's
original keys (for an initially empty store: exactly the strict ascending
sort of the distinct inserted keys); each present key's row holds the
last-written values for that key; and inserting at an already-present key
overwrites that row in place without changing the store's length. -/
theorem insert_ordering_overwrite {α : Type} (w : Nat) (ts : TS α)
    (ops : List (Int × List α)) (hw : 0 < w) (hv : ts.Valid w)
    (hops : ∀ p ∈ ops, p.2.length = w) :
    (List.Sorted (· < ·) (ts.insertAll ops).dates ∧
      ∀ k, k ∈ (ts.insertAll ops).dates ↔
        k ∈ ts.dates ∨ k ∈ ops.map Prod.fst) ∧
    (∀ k row, lastWritten ops k = some row →
      rowAt (ts.insertAll ops).dates (ts.insertAll ops).data k = some row) ∧
    (∀ k row, k ∈ ts.dates → row.length = w →
      (ts.insert k row).dates = ts.dates ∧
      (ts.insert k row).data.length = ts.data.length ∧
      rowAt (ts.insert k row).dates (ts.insert k row).data k = some row) := by
  obtain ⟨hv', hmem, hrow⟩ := insertAll_props w hw ops ts hv hops
  refine ⟨⟨hv'.1, hmem⟩, ?_, ?_⟩
  · intro k row hlast
    rw [hrow k, hlast]
    rfl
  · intro k row hk hrlen
    have hrow0 : ¬ row.length = 0 := by omega
    obtain ⟨_, _, hrow₁⟩ := insert_step ts w k row hv hrlen hw
    have hdates := insert_of_mem ts k row hrow0 hk
    refine ⟨by rw [hdates], by rw [hdates]; exact List.length_set _ _ _, ?_⟩
    rw [hrow₁ k, if_pos rfl]

/-- Witness for C1 at a concrete run: inserting keys 2, 1, 2 (the last a
duplicate overwrite) into the empty one-column store. -/
theorem insert_ordering_overwrite_witness :
    (List.Sorted (· < ·)
        ((TS.insertAll ⟨[], []⟩ [(2, [20]), (1, [10]), (2, [21])]).dates) ∧
      ∀ k, k ∈ (TS.insertAll (⟨[], []⟩ : TS Nat)
          [(2, [20]), (1, [10]), (2, [21])]).dates ↔
        k ∈ ([] : List Int) ∨
          k ∈ ([(2, [20]), (1, [10]), (2, [21])].map Prod.fst)) ∧
    (∀ k row, lastWritten [(2, [20]), (1, [10]), (2, [21])] k = some row →
      rowAt (TS.insertAll (⟨[], []⟩ : TS Nat)
          [(2, [20]), (1, [10]), (2, [21])]).dates
        (TS.insertAll ⟨[], []⟩ [(2, [20]), (1, [10]), (2, [21])]).data k =
        some row) ∧
    (∀ k row, k ∈ ([] : List Int) → row.length = 1 →
      ((⟨[], []⟩ : TS Nat).insert k row).dates = [] ∧
      ((⟨[], []⟩ : TS Nat).insert k row).data.length = 0 ∧
      rowAt ((⟨[], []⟩ : TS Nat).insert k row).dates
        ((⟨[], []⟩ : TS Nat).insert k row).data k = some row) :=
  insert_ordering_overwrite 1 ⟨[], []⟩ [(2, [20]), (1, [10]), (2, [21])]
    (by decide) ⟨List.sorted_nil, rfl, by simp⟩ (by simp)

/-- C9: inserting an empty row vector is a no-op: the key sequence, the
value matrix (hence the length), and the derived ordered index are left
unchanged, and no error is raised (`if len(values):` guards the body). -/
theorem insert_empty_row_noop {α : Type} (ts : TS α) (k : Int) :
    ts.insert k [] = ts := rfl

/-! ## Derivative operator `delta` -/

/-- `Numpy.delta` (np.py lines 190-194): the precondition
`lag < len(self) and lag > 0` raises the bounds error (`DyntsOutOfBound`,
the `.error` case here); otherwise the result matrix is
`self._data[lag:] - self._data[:-lag]` (elementwise row subtraction) with
keys `self._date[lag:]`.  `len(self)` is `shape[0]`, the number of matrix
rows. -/
def TS.delta (ts : TS ℚ) (lag : Int) : Except Unit (TS ℚ) :=
  if lag < (ts.data.length : Int) ∧ 0 < lag then
    .ok ⟨ts.dates.drop lag.toNat,
         List.zipWith (fun r s => List.zipWith (fun a b => a - b) r s)
           (ts.data.drop lag.toNat)
           (ts.data.take (ts.data.length - lag.toNat))⟩
  else .error ()

/-- Matrix entry observation: the value in row `i`, column `j` (out-of-range
reads give `0`; all uses are guarded by bounds). -/
def TS.val (ts : TS ℚ) (i j : Nat) : ℚ := (ts.data.getD i []).getD j 0

theorem getD_zipWith {α β γ : Type} (f : α → β → γ) (da : α) (db : β)
    (dc : γ) :
    ∀ (l₁ : List α) (l₂ : List β) (j : Nat), j < l₁.length → j < l₂.length →
    (List.zipWith f l₁ l₂).getD j dc = f (l₁.getD j da) (l₂.getD j db) := by
  intro l₁
  induction l₁ with
  | nil => intro l₂ j h₁ _; cases h₁
  | cons a t ih =>
    intro l₂ j h₁ h₂
    cases l₂ with
    | nil => cases h₂
    | cons b s =>
      cases j with
      | zero => rfl
      | succ j =>
        exact ih s j (Nat.lt_of_succ_lt_succ h₁) (Nat.lt_of_succ_lt_succ h₂)

theorem getD_drop {α : Type} (l : List α) (d : α) :
    ∀ (n i : Nat), (l.drop n).getD i d = l.getD (n + i) d := by
  induction l with
  | nil => intro n i; rw [List.drop_nil]; rfl
  | cons a t ih =>
    intro n i
    cases n with
    | zero => rw [List.drop_zero, Nat.zero_add]
    | succ n =>
      rw [List.drop_succ_cons, ih n i, show n + 1 + i = n + i + 1 by omega,
        List.getD_cons_succ]

theorem getD_take {α : Type} (l : List α) (d : α) :
    ∀ (n i : Nat), i < n → (l.take n).getD i d = l.getD i d := by
  induction l with
  | nil => intro n i _; rw [List.take_nil]
  | cons a t ih =>
    intro n i hi
    cases n with
    | zero => cases hi
    | succ n =>
      cases i with
      | zero => rfl
      | succ i => exact ih n i (Nat.lt_of_succ_lt_succ hi)

theorem getD_mem_of_lt {α : Type} (l : List α) (d : α) (i : Nat)
    (hi : i < l.length) : l.getD i d ∈ l := by
  rw [List.getD_eq_getElem l d hi]
  exact List.getElem_mem hi

/-- C5: for `0 < lag < N`, `delta(lag)` returns the store with
`result[i] = value[i+lag] - value[i]` per column for `i` in `[0, N-lag)` and
keys `keys[lag:]`; for `lag ≤ 0` or `lag ≥ N` it fails with the bounds
error. -/
theorem delta_spec (ts : TS ℚ) (w : Nat) (lag : Int) (hv : ts.Valid w) :
    ((lag ≤ 0 ∨ (ts.data.length : Int) ≤ lag) → ts.delta lag = .error ()) ∧
    ((0 < lag ∧ lag < (ts.data.length : Int)) → ∃ out, ts.delta lag = .ok out ∧
      out.dates = ts.dates.drop lag.toNat ∧
      out.data.length + lag.toNat = ts.data.length ∧
      (∀ i j : Nat, i + lag.toNat < ts.data.length → j < w →
        out.val i j = ts.val (i + lag.toNat) j - ts.val i j)) := by
  obtain ⟨_, hlen, hrows⟩ := hv
  constructor
  · intro h
    have hcond : ¬ (lag < (ts.data.length : Int) ∧ 0 < lag) := by omega
    unfold TS.delta
    rw [if_neg hcond]
  · intro ⟨h1, h2⟩
    have hcond : lag < (ts.data.length : Int) ∧ 0 < lag := ⟨h2, h1⟩
    have hlag : lag.toNat < ts.data.length := by omega
    refine ⟨_, by unfold TS.delta; rw [if_pos hcond], rfl, ?_, ?_⟩
    · show (List.zipWith _ (ts.data.drop lag.toNat)
        (ts.data.take (ts.data.length - lag.toNat))).length + lag.toNat =
        ts.data.length
      rw [List.length_zipWith, List.length_drop, List.length_take]
      omega
    · intro i j hi hj
      have hiA : i < (ts.data.drop lag.toNat).length := by
        rw [List.length_drop]; omega
      have hiB : i < (ts.data.take (ts.data.length - lag.toNat)).length := by
        rw [List.length_take]; omega
      show ((List.zipWith _ _ _).getD i []).getD j 0 = _
      rw [getD_zipWith (fun r s => List.zipWith (fun a b => a - b) r s)
        ([] : List ℚ) ([] : List ℚ) ([] : List ℚ) _ _ i hiA hiB]
      rw [getD_drop, getD_take ts.data [] _ i (by omega)]
      have hrA : (ts.data.getD (lag.toNat + i) []).length = w :=
        hrows _ (getD_mem_of_lt ts.data [] _ (by omega))
      have hrB : (ts.data.getD i []).length = w :=
        hrows _ (getD_mem_of_lt ts.data [] _ (by omega))
      rw [getD_zipWith (fun a b => a - b) (0 : ℚ) (0 : ℚ) (0 : ℚ)
        _ _ j (by omega) (by omega)]
      unfold TS.val
      rw [Nat.add_comm lag.toNat i]

/-- Witness for C5: `delta(1)` on values `[10, 12, 15]` yields `[2, 3]`
(the spec's own derivative example), and `delta(0)` raises the bounds
error. -/
theorem delta_spec_witness :
    TS.delta ⟨[1, 2, 3], [[10], [12], [15]]⟩ 0 = .error () ∧
    TS.delta ⟨[1, 2, 3], [[10], [12], [15]]⟩ 1 =
      .ok ⟨[2, 3], [[2], [3]]⟩ :=
  ⟨(delta_spec ⟨[1, 2, 3], [[10], [12], [15]]⟩ 1 0
      ⟨by decide, rfl, by decide⟩).1 (Or.inl le_rfl),
   by norm_num [TS.delta]⟩

/-! ## Rolling-window `apply`: window validation -/

/-- `TimeSeries.apply` window handling (timeseries.py lines 456-458):
`N = len(self)`, then `window = window or N`, then
`self.precondition(window <= N and window > 0, DyntsOutOfBound)`.
Python's `or` takes its right operand when the left is falsy, which happens
both when `window` is `None` (unsupplied) and when it is the integer `0`.
The payload is the effective window handed on to `_rollapply`; the bounds
error is the `.error` case. -/
def TS.applyWindow (ts : TS ℚ) (window : Option Int) : Except Unit Int :=
  let N : Int := ts.data.length
  let w : Int := match window with
    | none => N
    | some x => if x = 0 then N else x
  if w ≤ N ∧ 0 < w then .ok w else .error ()

/-- C3 counterexample: on a store of length 3, `apply` with `window = 0`
does not raise a bounds error, although `0 < 0 ≤ 3` is false: `window or N`
treats the falsy `0` as unsupplied, so the whole-dataset window `3` is
used. -/
theorem apply_window_zero_counterexample :
    TS.applyWindow ⟨[1, 2, 3], [[1], [2], [3]]⟩ (some 0) = .ok 3 := by
  norm_num [TS.applyWindow]

/-- C3 amended: writing `N = len(store)` and taking the effective window to
be `N` when the argument is unsupplied or `0` (both falsy in `window or N`)
and the argument itself otherwise, `apply` raises the bounds error iff the
effective window does not satisfy `0 < w ≤ N`; a supplied non-zero window
errors exactly when it violates the bounds, while `window = 0` behaves as
the whole-dataset default and errors only on an empty store. -/
theorem apply_window_bounds (ts : TS ℚ) (window : Option Int) :
    (∀ x : Int, window = some x → ¬ x = 0 →
      ts.applyWindow window =
        if 0 < x ∧ x ≤ (ts.data.length : Int) then .ok x else .error ()) ∧
    ((window = none ∨ window = some 0) →
      ts.applyWindow window =
        if 0 < (ts.data.length : Int) then .ok (ts.data.length : Int)
        else .error ()) := by
  have hN : ∀ N : Int,
      (if N ≤ N ∧ 0 < N then (.ok N : Except Unit Int) else .error ()) =
      if 0 < N then .ok N else .error () := by
    intro N
    by_cases h : 0 < N
    · rw [if_pos ⟨le_rfl, h⟩, if_pos h]
    · rw [if_neg (fun hc => h hc.2), if_neg h]
  constructor
  · intro x hx hx0
    subst hx
    simp only [TS.applyWindow, if_neg hx0]
    by_cases h : 0 < x ∧ x ≤ (ts.data.length : Int)
    · rw [if_pos ⟨h.2, h.1⟩, if_pos h]
    · rw [if_neg (fun hc => h ⟨hc.2, hc.1⟩), if_neg h]
  · intro hw
    rcases hw with hw | hw <;> subst hw
    · simp only [TS.applyWindow]
      exact hN _
    · simp only [TS.applyWindow, if_pos rfl]
      exact hN _

/-- Witness for C3 (amended): on the length-3 store, a supplied window of 2
is in bounds and accepted, and an unsupplied window defaults to the full
length 3. -/
theorem apply_window_bounds_witness :
    TS.applyWindow ⟨[1, 2, 3], [[1], [2], [3]]⟩ (some 2) = .ok 2 ∧
    TS.applyWindow ⟨[1, 2, 3], [[1], [2], [3]]⟩ none = .ok 3 := by
  constructor
  · have h := (apply_window_bounds ⟨[1, 2, 3], [[1], [2], [3]]⟩ (some 2)).1
      2 rfl (by norm_num)
    rw [h]
    norm_num
  · have h := (apply_window_bounds ⟨[1, 2, 3], [[1], [2], [3]]⟩ none).2
      (Or.inl rfl)
    rw [h]
    norm_num

/-! ## Algorithm registry and `reduce` -/

/-- `TimeSeries.getalgo` (timeseries.py lines 74-83): raises the
not-available error when the operation is not registered, or when the name
is absent within that operation's table; otherwise returns the callable. -/
def getalgo {A : Type} (algorithms : List (String × List (String × A)))
    (operation name : String) : Except String A :=
  match algorithms.lookup operation with
  | none => .error (operation ++ " not registered.")
  | some oper =>
    match oper.lookup name with
    | none => .error (operation ++ " algorithm " ++ name ++ " not registered.")
    | some f => .ok f

/-- `TimeSeries.reduce` (timeseries.py lines 252-257):
`if size >= len(self): return self` — otherwise dispatch to the registered
`reduce` algorithm named *method* with `(self, size)`.  The registry is an
explicit argument (`cls._algorithms` in the source). -/
def TS.reduce (ts : TS ℚ)
    (algorithms : List (String × List (String × (TS ℚ → Int → TS ℚ))))
    (size : Int) (method : String) : Except String (TS ℚ) :=
  if (ts.data.length : Int) ≤ size then .ok ts
  else (getalgo algorithms "reduce" method).map (fun f => f ts size)

/-- C7: `reduce(size, method)` with `size ≥ len(store)` returns the store
itself unchanged for every registry contents and every method name (the
registry is never consulted); only when `size < len(store)` does it
dispatch to the registered `reduce` algorithm named `method` applied to
`(store, size)`. -/
theorem reduce_identity (ts : TS ℚ)
    (algorithms : List (String × List (String × (TS ℚ → Int → TS ℚ))))
    (size : Int) (method : String) :
    ((ts.data.length : Int) ≤ size →
      ts.reduce algorithms size method = .ok ts) ∧
    (size < (ts.data.length : Int) →
      ts.reduce algorithms size method =
        (getalgo algorithms "reduce" method).map (fun f => f ts size)) := by
  constructor
  · intro h
    unfold TS.reduce
    rw [if_pos h]
  · intro h
    unfold TS.reduce
    rw [if_neg (not_le.mpr h)]

/-- Witness for C7: with an empty registry, `reduce(5, "simple")` on a
length-3 store is the identity (no not-available error: the registry is
not consulted). -/
theorem reduce_identity_witness :
    TS.reduce ⟨[1, 2, 3], [[1], [2], [3]]⟩ [] 5 "simple" =
      .ok ⟨[1, 2, 3], [[1], [2], [3]]⟩ :=
  (reduce_identity ⟨[1, 2, 3], [[1], [2], [3]]⟩ [] 5 "simple").1 (by norm_num)

/-! ## Variance: base-class formula vs numpy backend -/

/-- The columns of a rational-valued store: `series()` yields `data[:,c]`
for `c in range(count())` (timeseries.py lines 163-170). -/
def TS.columnsQ (ts : TS ℚ) : List (List ℚ) :=
  (List.range ts.width).map fun j => ts.data.map (fun r => r.getD j 0)

/-- Base-class `TimeSeries.var` (timeseries.py lines 412-430), read per
column: with `v = values()` and `mu = sum(v)` (the Python `sum` of the row
vectors is the vector of column sums), the result is
`(sum(v*v) - mu*mu/N)/(N - ddof)` in each column. -/
def TS.varBase (ts : TS ℚ) (ddof : Int) : List ℚ :=
  ts.columnsQ.map fun c =>
    ((c.map fun x => x * x).sum -
        c.sum * c.sum / (ts.data.length : ℚ)) /
      ((ts.data.length : ℚ) - (ddof : ℚ))

/-- `Numpy.var` (np.py lines 172-173): `self._data.var(0, ddof=ddof)`,
numpy's per-column variance `sum((x - mean)**2)/(N - ddof)` with
`mean = sum(x)/N`. -/
def TS.varNumpy (ts : TS ℚ) (ddof : Int) : List ℚ :=
  ts.columnsQ.map fun c =>
    (c.map fun x => (x - c.sum / (ts.data.length : ℚ)) ^ 2).sum /
      ((ts.data.length : ℚ) - (ddof : ℚ))

theorem sum_sq_sub (l : List ℚ) (m : ℚ) :
    (l.map fun x => (x - m) ^ 2).sum =
      (l.map fun x => x * x).sum - 2 * m * l.sum + (l.length : ℚ) * m ^ 2 := by
  induction l with
  | nil => simp
  | cons a t ih =>
    simp only [List.map_cons, List.sum_cons, ih, List.length_cons]
    push_cast
    ring

theorem length_mem_columnsQ (ts : TS ℚ) (c : List ℚ) (hc : c ∈ ts.columnsQ) :
    c.length = ts.data.length := by
  unfold TS.columnsQ at hc
  obtain ⟨j, -, hj⟩ := List.mem_map.mp hc
  rw [← hj, List.length_map]

/-- C10: on a non-empty store with `N - ddof ≠ 0`, the base-class variance
formula `(sum(v*v) - sum(v)*sum(v)/N)/(N-ddof)` computed per column equals
the numpy backend's per-column `sum((v - mean)^2)/(N-ddof)` under exact
arithmetic. -/
theorem var_base_eq_var_numpy (ts : TS ℚ) (ddof : Int)
    (hne : ts.data ≠ [])
    (hdd : (ts.data.length : ℚ) - (ddof : ℚ) ≠ 0) :
    ts.varBase ddof = ts.varNumpy ddof := by
  have hN : (ts.data.length : ℚ) ≠ 0 := by
    have : ts.data.length ≠ 0 := fun h => hne (List.length_eq_zero.mp h)
    exact_mod_cast this
  unfold TS.varBase TS.varNumpy
  apply List.map_congr_left
  intro c hc
  have hlen : (c.length : ℚ) = (ts.data.length : ℚ) := by
    exact_mod_cast congrArg Nat.cast (length_mem_columnsQ ts c hc)
  rw [sum_sq_sub c (c.sum / (ts.data.length : ℚ)), hlen]
  congr 1
  field_simp
  ring

/-- Witness for C10 at the two-row store `[[1],[3]]` with `ddof = 1`. -/
theorem var_base_eq_var_numpy_witness :
    TS.varBase ⟨[1, 2], [[1], [3]]⟩ 1 = TS.varNumpy ⟨[1, 2], [[1], [3]]⟩ 1 :=
  var_base_eq_var_numpy ⟨[1, 2], [[1], [3]]⟩ 1 (List.cons_ne_nil _ _)
    (by norm_num)

/-! ## The gap-cleaning engine `clean`

Values are `Option ℚ`: `none` is not-a-number, the one value with
`v == v` false, which is how `clean` (timeseries.py lines 259-309) detects
a missing observation. -/

/-- A caller-supplied interpolation algorithm:
`algorithm(dend, vend, d_or_none, v_or_none, missings)` yields
(key, value) pairs. -/
def Algo : Type :=
  Option Int → Option ℚ → Option Int → Option ℚ → List (Int × Option ℚ) →
    List (Int × ℚ)

/-- The per-column scan state of `clean`: `dstart`, `dend`, `vend`, the
pending missing-run buffer `missings`, and the `values` dict (an
association list; the scanned keys are distinct in a well-formed store, so
appending is exactly dict insertion).  The source's `new_dates` /
`new_values` lists receive the interpolation output and are never read
again, so they carry no observable state and are omitted. -/
structure ColScan where
  dstart : Option Int
  dend : Option Int
  vend : Option ℚ
  missings : List (Int × Option ℚ)
  values : List (Int × ℚ)
  deriving Repr, DecidableEq

/-- One valid observation `(d, v)` with `v == v` (timeseries.py lines
273-283): establish `dstart` on first sight, resolve a pending missing run
(its interpolated pairs go only to the dead `new_dates`/`new_values`
lists, so resolution just clears the buffer), then record
`dend = d`, `vend = v`, `values[d] = v`. -/
def stepValid (st : ColScan) (d : Int) (v : ℚ) : ColScan :=
  let st₁ := if st.dstart = none then { st with dstart := some d } else st
  let st₂ := if st₁.missings = [] then st₁ else { st₁ with missings := [] }
  { st₂ with dend := some d, vend := some v, values := st₂.values ++ [(d, v)] }

/-- End of a column's iteration with a run still pending (timeseries.py
lines 286-290): the interpolated pairs go to the dead lists, but the
`dend = dx` update inside that loop is observable, moving `dend` to the
last interpolated key.  (A pending run with a falsy algorithm cannot
arise, since only a truthy algorithm buffers; the `none` arm is dead.) -/
def finishColumn (alg : Option Algo) (st : ColScan) : ColScan :=
  if st.missings = [] then st
  else
    match alg with
    | some f =>
        { st with
          dend := (f st.dend st.vend none none st.missings).foldl
            (fun _ p => some p.1) st.dend }
    | none => st

/-- The per-column scan of `clean` over `zip(original_dates, serie)`.  A
missing observation seen after `dstart` with a truthy algorithm executes
`missings.append((dt, v))` — but `dt` is the local variable of the later
reconciliation loop (timeseries.py line 295), unassigned at this point, so
CPython raises `UnboundLocalError`: the `.error` case. -/
def scanColumn (alg : Option Algo) :
    List (Int × Option ℚ) → ColScan → Except Unit ColScan
  | [], st => .ok (finishColumn alg st)
  | (d, v) :: rest, st =>
    match v with
    | some x => scanColumn alg rest (stepValid st d x)
    | none =>
      if ¬ st.dstart = none ∧ alg.isSome then .error ()
      else scanColumn alg rest st

/-- The columns of an `Option ℚ`-valued store (`series()`). -/
def TS.columns (ts : TS (Option ℚ)) : List (List (Option ℚ)) :=
  (List.range ts.width).map fun j => ts.data.map (fun r => r.getD j none)

/-- The reconciliation test `start is None or (dt >= start and dt <= end)`
of timeseries.py line 298.  (The `some`/`none` arm cannot arise: a scan
sets `dend` whenever it sets `dstart`.) -/
def inWindow (s : ColScan) (dt : Int) : Bool :=
  match s.dstart, s.dend with
  | none, _ => true
  | some b, some e => decide (b ≤ dt ∧ dt ≤ e)
  | some _, none => true

/-- One row of the reconciliation loop (timeseries.py lines 296-305): each
column in order contributes its recorded value if the key is in its
validity window (dropping the whole row — `none` here — if it has no
entry), and not-a-number if the key is outside the window. -/
def crossAt : List ColScan → Int → Option (List (Option ℚ))
  | [], _ => some []
  | s :: rest, dt =>
    if inWindow s dt then
      match s.values.lookup dt with
      | none => none
      | some v => (crossAt rest dt).map (fun l => some v :: l)
    else
      (crossAt rest dt).map (fun l => none :: l)

/-- The kept entry for key `dt`, if any: a surviving non-empty
cross-section (`if cross:` drops both a vetoed row and an empty list). -/
def keepRow (scans : List ColScan) (dt : Int) :
    Option (Int × List (Option ℚ)) :=
  match crossAt scans dt with
  | some (c :: cs) => some (dt, c :: cs)
  | _ => none

/-- `TimeSeries.clean` (timeseries.py lines 259-309): scan every column
(the first failing column aborts, like the raising loop in the source),
take the union of all recorded keys, sort it ascending, keep each key whose
cross-section survives, and clone the kept keys and rows into a new
store. -/
def TS.clean (ts : TS (Option ℚ)) (alg : Option Algo) :
    Except Unit (TS (Option ℚ)) :=
  (ts.columns.mapM
    (fun col => scanColumn alg (ts.dates.zip col)
      ⟨none, none, none, [], []⟩)).map
  (fun scans =>
    let allDates := ((scans.map (fun s => s.values.map Prod.fst)).flatten).dedup
    let sorted := allDates.insertionSort (fun a b => a ≤ b)
    let keep := sorted.filterMap (keepRow scans)
    ⟨keep.map Prod.fst, keep.map Prod.snd⟩)

/-- A concrete (truthy) interpolation algorithm: interpolate nothing. -/
def constAlg : Algo := fun _ _ _ _ _ => []

section CleanLemmas

theorem stepValid_missings_nil (st : ColScan) (d : Int) (v : ℚ)
    (hm : st.missings = []) :
    stepValid st d v =
      { dstart := match st.dstart with
          | some d₀ => some d₀
          | none => some d,
        dend := some d, vend := some v, missings := [],
        values := st.values ++ [(d, v)] } := by
  obtain ⟨sd, se, sv, sm, svals⟩ := st
  simp only at hm
  subst hm
  cases sd <;> simp [stepValid]

theorem scanColumn_no_missing (alg : Option Algo) :
    ∀ (pairs : List (Int × Option ℚ)) (st : ColScan),
    (∀ p ∈ pairs, p.2 ≠ none) → st.missings = [] →
    scanColumn alg pairs st = .ok
      { dstart := match st.dstart with
          | some d₀ => some d₀
          | none => pairs.head?.map Prod.fst,
        dend := match pairs.getLast? with
          | some p => some p.1
          | none => st.dend,
        vend := match pairs.getLast? with
          | some p => p.2
          | none => st.vend,
        missings := [],
        values := st.values ++
          pairs.filterMap (fun p => p.2.map (fun x => (p.1, x))) } := by
  intro pairs
  induction pairs with
  | nil =>
    intro st hp hm
    obtain ⟨sd, se, sv, sm, svals⟩ := st
    simp only at hm
    subst hm
    cases sd <;> simp [scanColumn, finishColumn]
  | cons p rest ih =>
    intro st hp hm
    obtain ⟨d, v⟩ := p
    have hv : v ≠ none := hp (d, v) (List.mem_cons_self _ _)
    cases v with
    | none => exact absurd rfl hv
    | some x =>
      show scanColumn alg rest (stepValid st d x) = _
      rw [stepValid_missings_nil st d x hm]
      rw [ih _ (fun q hq => hp q (List.mem_cons_of_mem _ hq)) rfl]
      have hfm : ((d, some x) :: rest).filterMap
            (fun p => p.2.map (fun x => (p.1, x))) =
          (d, x) :: rest.filterMap (fun p => p.2.map (fun x => (p.1, x))) := by
        rw [List.filterMap_cons]
        rfl
      cases rest with
      | nil =>
        cases hsd : st.dstart <;>
          simp [hfm]
      | cons q qrest =>
        obtain ⟨pl, hpl⟩ := Option.isSome_iff_exists.mp
          (List.getLast?_isSome.mpr (List.cons_ne_nil q qrest))
        cases hsd : st.dstart <;>
          simp [hfm, List.getLast?_cons_cons, List.append_assoc, hpl]

theorem scanColumn_no_missing_init (alg : Option Algo)
    (pairs : List (Int × Option ℚ)) (hp : ∀ p ∈ pairs, p.2 ≠ none) :
    scanColumn alg pairs ⟨none, none, none, [], []⟩ = .ok
      { dstart := pairs.head?.map Prod.fst,
        dend := pairs.getLast?.map Prod.fst,
        vend := pairs.getLast?.bind Prod.snd,
        missings := [],
        values := pairs.filterMap (fun p => p.2.map (fun x => (p.1, x))) } := by
  rw [scanColumn_no_missing alg pairs ⟨none, none, none, [], []⟩ hp rfl]
  congr 1
  cases h : pairs.getLast? <;> simp [h]

theorem scanColumn_all_none (alg : Option Algo) :
    ∀ (pairs : List (Int × Option ℚ)) (st : ColScan),
    (∀ p ∈ pairs, p.2 = none) → st.dstart = none → st.missings = [] →
    scanColumn alg pairs st = .ok st := by
  intro pairs
  induction pairs with
  | nil =>
    intro st _ _ hm
    show Except.ok (finishColumn alg st) = _
    rw [finishColumn.eq_def, if_pos hm]
  | cons p rest ih =>
    intro st hp hsd hm
    obtain ⟨d, v⟩ := p
    have hv : v = none := hp (d, v) (List.mem_cons_self _ _)
    subst hv
    show (if ¬ st.dstart = none ∧ alg.isSome then Except.error ()
      else scanColumn alg rest st) = _
    rw [if_neg (fun hc => hc.1 hsd)]
    exact ih st (fun q hq => hp q (List.mem_cons_of_mem _ hq)) hsd hm

theorem mapM_ok {β γ : Type} (f : β → Except Unit γ) (g : β → γ) :
    ∀ (l : List β), (∀ b ∈ l, f b = .ok (g b)) →
    l.mapM f = .ok (l.map g) := by
  intro l
  induction l with
  | nil => intro _; rfl
  | cons b t ih =>
    intro h
    rw [List.mapM_cons, h b (List.mem_cons_self b t),
      ih (fun c hc => h c (List.mem_cons_of_mem b hc))]
    rfl

theorem mapM_mem_ok {β γ : Type} (f : β → Except Unit γ) :
    ∀ (l : List β) (out : List γ), l.mapM f = .ok out →
    ∀ b ∈ l, ∃ c ∈ out, f b = .ok c := by
  intro l
  induction l with
  | nil => intro out _ b hb; cases hb
  | cons a t ih =>
    intro out hout b hb
    rw [List.mapM_cons] at hout
    cases hfa : f a with
    | error e => rw [hfa] at hout; cases hout
    | ok c =>
      rw [hfa] at hout
      cases hmt : t.mapM f with
      | error e => rw [hmt] at hout; cases hout
      | ok cs =>
        rw [hmt] at hout
        have hcs : c :: cs = out := Except.ok.inj hout
        rcases List.mem_cons.mp hb with hba | hb'
        · exact ⟨c, hcs ▸ List.mem_cons_self c cs, hba ▸ hfa⟩
        · obtain ⟨c', hc', hfc'⟩ := ih cs hmt b hb'
          exact ⟨c', hcs ▸ List.mem_cons_of_mem c hc', hfc'⟩

theorem crossAt_veto (dt : Int) :
    ∀ (scans : List ColScan) (s : ColScan), s ∈ scans →
    inWindow s dt = true → s.values.lookup dt = none →
    crossAt scans dt = none := by
  intro scans
  induction scans with
  | nil => intro s hs; cases hs
  | cons s₀ rest ih =>
    intro s hs hw hl
    rcases List.mem_cons.mp hs with hs₀ | hs'
    · show (if inWindow s₀ dt then _ else _) = _
      rw [← hs₀, if_pos hw, hl]
    · show (if inWindow s₀ dt then _ else _) = _
      by_cases hw₀ : inWindow s₀ dt
      · rw [if_pos hw₀]
        cases hl₀ : s₀.values.lookup dt with
        | none => rfl
        | some v => rw [ih s hs' hw hl]; rfl
      · rw [if_neg hw₀, ih s hs' hw hl]; rfl

theorem crossAt_all_found (dt : Int) :
    ∀ (scans : List ColScan),
    (∀ s ∈ scans, inWindow s dt = true ∧ (s.values.lookup dt).isSome) →
    crossAt scans dt = some (scans.map (fun s => s.values.lookup dt)) := by
  intro scans
  induction scans with
  | nil => intro _; rfl
  | cons s rest ih =>
    intro h
    obtain ⟨hw, hsome⟩ := h s (List.mem_cons_self s rest)
    obtain ⟨v, hv⟩ := Option.isSome_iff_exists.mp hsome
    show (if inWindow s dt then _ else _) = _
    rw [if_pos hw, hv, ih (fun s' hs' => h s' (List.mem_cons_of_mem s hs')),
      List.map_cons, hv]
    rfl

theorem map_fst_filterMap_zip :
    ∀ (ds : List Int) (cs : List (Option ℚ)), cs.length = ds.length →
    (∀ v ∈ cs, v ≠ none) →
    ((ds.zip cs).filterMap
      (fun p => p.2.map (fun x => (p.1, x)))).map Prod.fst = ds := by
  intro ds
  induction ds with
  | nil => intro cs _ _; rfl
  | cons d ds ih =>
    intro cs hlen hsome
    cases cs with
    | nil => cases hlen
    | cons c cs =>
      cases c with
      | none => exact absurd rfl (hsome none (List.mem_cons_self _ _))
      | some x =>
        show ((List.filterMap _ ((d, some x) :: ds.zip cs)).map Prod.fst) = _
        rw [List.filterMap_cons]
        show ((d, x) :: List.filterMap _ (ds.zip cs)).map Prod.fst = _
        rw [List.map_cons,
          ih cs (Nat.succ_injective hlen)
            (fun v hv => hsome v (List.mem_cons_of_mem _ hv))]

theorem lookup_filterMap_zip :
    ∀ (ds : List Int) (cs : List (Option ℚ)), cs.length = ds.length →
    ds.Nodup → (∀ v ∈ cs, v ≠ none) →
    ∀ i, i < ds.length →
    ((ds.zip cs).filterMap (fun p => p.2.map (fun x => (p.1, x)))).lookup
        (ds.getD i 0) = cs.getD i none := by
  intro ds
  induction ds with
  | nil => intro cs _ _ _ i hi; cases hi
  | cons d ds ih =>
    intro cs hlen hnd hsome i hi
    cases cs with
    | nil => cases hlen
    | cons c cs =>
      cases c with
      | none => exact absurd rfl (hsome none (List.mem_cons_self _ _))
      | some x =>
        show (List.filterMap _ ((d, some x) :: ds.zip cs)).lookup _ = _
        rw [List.filterMap_cons]
        cases i with
        | zero =>
          show List.lookup d ((d, x) :: _) = some x
          simp [List.lookup_cons]
        | succ i =>
          have hkey : ds.getD i 0 ∈ ds :=
            getD_mem_of_lt ds 0 i (Nat.lt_of_succ_lt_succ hi)
          have hne : ds.getD i 0 ≠ d :=
            fun h => (List.nodup_cons.mp hnd).1 (h ▸ hkey)
          show List.lookup (ds.getD i 0) ((d, x) :: _) = _
          rw [List.lookup_cons]
          have hbeq : (ds.getD i 0 == d) = false := beq_false_of_ne hne
          rw [hbeq]
          exact ih cs (Nat.succ_injective hlen) (List.nodup_cons.mp hnd).2
            (fun v hv => hsome v (List.mem_cons_of_mem _ hv)) i
            (Nat.lt_of_succ_lt_succ hi)

theorem zip_head?_fst {γ : Type} :
    ∀ (ds : List Int) (cs : List γ), cs.length = ds.length →
    (ds.zip cs).head?.map Prod.fst = ds.head? := by
  intro ds cs hlen
  cases ds with
  | nil => rfl
  | cons d ds =>
    cases cs with
    | nil => cases hlen
    | cons c cs => rfl

theorem zip_getLast?_fst {γ : Type} :
    ∀ (ds : List Int) (cs : List γ), cs.length = ds.length →
    (ds.zip cs).getLast?.map Prod.fst = ds.getLast? := by
  intro ds
  induction ds with
  | nil => intro cs _; rfl
  | cons d ds ih =>
    intro cs hlen
    cases cs with
    | nil => cases hlen
    | cons c cs =>
      cases ds with
      | nil =>
        have : cs = [] := List.length_eq_zero.mp (Nat.succ_injective hlen)
        subst this
        rfl
      | cons d' ds' =>
        cases cs with
        | nil => cases Nat.succ_injective hlen
        | cons c' cs' =>
          show ((d, c) :: (d', c') :: List.zip ds' cs').getLast?.map Prod.fst =
            _
          rw [List.getLast?_cons_cons, List.getLast?_cons_cons]
          exact ih (c' :: cs') (Nat.succ_injective hlen)

theorem sorted_head_le (ds : List Int) (hs : List.Sorted (· < ·) ds)
    (x : Int) (hx : x ∈ ds) (h : Int) (hh : ds.head? = some h) : h ≤ x := by
  cases ds with
  | nil => cases hx
  | cons d t =>
    have hd : h = d := by
      have := hh
      simp only [List.head?_cons, Option.some.injEq] at this
      exact this.symm
    subst hd
    rcases List.mem_cons.mp hx with hxd | hxt
    · rw [hxd]
    · exact le_of_lt ((List.sorted_cons.mp hs).1 x hxt)

theorem sorted_le_getLast (ds : List Int) (hs : List.Sorted (· < ·) ds)
    (x : Int) (hx : x ∈ ds) (e : Int) (he : ds.getLast? = some e) : x ≤ e := by
  induction ds with
  | nil => cases hx
  | cons d t ih =>
    cases t with
    | nil =>
      have hxd : x = d := by
        rcases List.mem_cons.mp hx with hxd | hxt
        · exact hxd
        · cases hxt
      have hde : d = e := by
        have := he
        simp only [List.getLast?_singleton, Option.some.injEq] at this
        exact this
      rw [hxd, hde]
    | cons d' t' =>
      rw [List.getLast?_cons_cons] at he
      have hmem_e : e ∈ d' :: t' := by
        have hsome := List.getLast?_isSome.mpr (List.cons_ne_nil d' t')
        have : e ∈ (d' :: t') := by
          have hgl := List.getLast?_eq_getLast (d' :: t') (List.cons_ne_nil d' t')
          rw [hgl] at he
          have : (d' :: t').getLast (List.cons_ne_nil d' t') = e :=
            Option.some.inj he
          rw [← this]
          exact List.getLast_mem _
        exact this
      rcases List.mem_cons.mp hx with hxd | hxt
      · rw [hxd]
        exact le_of_lt ((List.sorted_cons.mp hs).1 e hmem_e)
      · exact ih (List.sorted_cons.mp hs).2 hxt he

theorem map_range_getD {β : Type} (row : List β) (d : β) :
    (List.range row.length).map (fun j => row.getD j d) = row := by
  apply List.ext_getElem
  · rw [List.length_map, List.length_range]
  · intro n h1 h2
    rw [List.getElem_map, List.getElem_range, List.getD_eq_getElem row d h2]

theorem getD_map {β γ : Type} (f : β → γ) (l : List β) (d : β) (i : Nat)
    (hi : i < l.length) : (l.map f).getD i (f d) = f (l.getD i d) := by
  rw [List.getD_eq_getElem (l.map f) (f d)
      (by rw [List.length_map]; exact hi),
    List.getD_eq_getElem l d hi, List.getElem_map]

theorem filterMap_eq_zip {β : Type} (b₀ : β) (F : Int → Option (Int × β)) :
    ∀ (ds : List Int) (rs : List β), rs.length = ds.length →
    (∀ i, i < ds.length → F (ds.getD i 0) = some (ds.getD i 0, rs.getD i b₀)) →
    ds.filterMap F = ds.zip rs := by
  intro ds
  induction ds with
  | nil => intro rs _ _; rfl
  | cons d ds ih =>
    intro rs hlen hF
    cases rs with
    | nil => cases hlen
    | cons r rs =>
      rw [List.filterMap_cons]
      have h0 := hF 0 (Nat.succ_pos _)
      simp only [List.getD_cons_zero] at h0
      rw [h0]
      show (d, r) :: List.filterMap F ds = (d, r) :: ds.zip rs
      rw [ih rs (Nat.succ_injective hlen)]
      intro i hi
      have := hF (i + 1) (Nat.succ_lt_succ hi)
      simpa only [List.getD_cons_succ] using this

theorem inWindow_some (s : ColScan) (b e dt : Int) (hb : s.dstart = some b)
    (he : s.dend = some e) (h1 : b ≤ dt) (h2 : dt ≤ e) :
    inWindow s dt = true := by
  unfold inWindow
  rw [hb, he]
  exact decide_eq_true ⟨h1, h2⟩

theorem getD_map_col (l : List (List (Option ℚ))) (j i : Nat)
    (hi : i < l.length) :
    (l.map (fun r => r.getD j none)).getD i none =
      (l.getD i []).getD j none := by
  have h := getD_map (fun r => r.getD j none) l [] i hi
  simpa only [List.getD_nil] using h

end CleanLemmas

/-- C4: `clean(algorithm)` applied to a well-formed store with no missing
values (every value compares equal to itself, i.e. every entry is `some`)
returns a store with identical keys and values — in fact the very same
store — for any interpolation algorithm. -/
theorem clean_no_missing_identity (ts : TS (Option ℚ)) (w : Nat)
    (alg : Option Algo) (hv : ts.Valid w) (hw : 0 < w)
    (hnomiss : ∀ r ∈ ts.data, ∀ v ∈ r, v ≠ none) :
    ts.clean alg = .ok ts := by
  obtain ⟨hs, hlen, hrows⟩ := hv
  cases hdata : ts.data with
  | nil =>
    have hdates : ts.dates = [] := by
      apply List.length_eq_zero.mp
      rw [← hlen, hdata]
      rfl
    have hts : ts = ⟨[], []⟩ := by
      obtain ⟨d1, d2⟩ := ts
      simp only at hdata hdates
      rw [hdata, hdates]
    rw [hts]
    rfl
  | cons r₀ data' =>
    -- column width
    have hwidth : ts.width = w := by
      unfold TS.width
      rw [hdata]
      exact hrows r₀ (by rw [hdata]; exact List.mem_cons_self _ _)
    have hdlen : 0 < ts.data.length := by rw [hdata]; exact Nat.succ_pos _
    have hNpos : 0 < ts.dates.length := by rw [← hlen]; exact hdlen
    have hdne : ts.dates ≠ [] := fun h => by
      rw [h] at hNpos; cases hNpos
    -- facts about every column
    have hcol_shape : ∀ col ∈ ts.columns,
        col.length = ts.dates.length ∧ (∀ v ∈ col, v ≠ none) := by
      intro col hc
      obtain ⟨j, hj, rfl⟩ := List.mem_map.mp hc
      have hj' : j < w := by
        have := List.mem_range.mp hj
        rw [hwidth] at this
        exact this
      constructor
      · rw [List.length_map, hlen]
      · intro v hv'
        obtain ⟨r, hr, rfl⟩ := List.mem_map.mp hv'
        have hjr : j < r.length := by rw [hrows r hr]; exact hj'
        exact hnomiss r hr _ (getD_mem_of_lt r none j hjr)
    -- the scan of each column
    have hmapM : ts.columns.mapM
        (fun col => scanColumn alg (ts.dates.zip col)
          ⟨none, none, none, [], []⟩) =
        .ok (ts.columns.map (fun col =>
          (⟨(ts.dates.zip col).head?.map Prod.fst,
            (ts.dates.zip col).getLast?.map Prod.fst,
            (ts.dates.zip col).getLast?.bind Prod.snd,
            [],
            (ts.dates.zip col).filterMap
              (fun p => p.2.map (fun x => (p.1, x)))⟩ : ColScan))) := by
      apply mapM_ok
      intro col hc
      apply scanColumn_no_missing_init
      intro p hp
      have := (List.of_mem_zip hp).2
      exact (hcol_shape col hc).2 p.2 this
    set g : List (Option ℚ) → ColScan := fun col =>
      (⟨(ts.dates.zip col).head?.map Prod.fst,
        (ts.dates.zip col).getLast?.map Prod.fst,
        (ts.dates.zip col).getLast?.bind Prod.snd,
        [],
        (ts.dates.zip col).filterMap
          (fun p => p.2.map (fun x => (p.1, x)))⟩ : ColScan) with hg
    -- head and last of the key sequence
    obtain ⟨b₀, hb₀⟩ := Option.isSome_iff_exists.mp
      (List.head?_isSome.mpr hdne)
    obtain ⟨e₀, he₀⟩ := Option.isSome_iff_exists.mp
      (List.getLast?_isSome.mpr hdne)
    -- reconciliation facts per key index
    have hfind : ∀ i, i < ts.dates.length → ∀ s ∈ ts.columns.map g,
        inWindow s (ts.dates.getD i 0) = true ∧
        (s.values.lookup (ts.dates.getD i 0)).isSome := by
      intro i hi s hsm
      obtain ⟨col, hc, rfl⟩ := List.mem_map.mp hsm
      obtain ⟨hclen, hcsome⟩ := hcol_shape col hc
      have hdt_mem : ts.dates.getD i 0 ∈ ts.dates :=
        getD_mem_of_lt ts.dates 0 i hi
      constructor
      · apply inWindow_some (g col) b₀ e₀ (ts.dates.getD i 0)
        · show (ts.dates.zip col).head?.map Prod.fst = some b₀
          rw [zip_head?_fst ts.dates col hclen, hb₀]
        · show (ts.dates.zip col).getLast?.map Prod.fst = some e₀
          rw [zip_getLast?_fst ts.dates col hclen, he₀]
        · exact sorted_head_le ts.dates hs _ hdt_mem b₀ hb₀
        · exact sorted_le_getLast ts.dates hs _ hdt_mem e₀ he₀
      · show ((ts.dates.zip col).filterMap
            (fun p => p.2.map (fun x => (p.1, x)))).lookup
            (ts.dates.getD i 0) |>.isSome
        rw [lookup_filterMap_zip ts.dates col hclen hs.nodup hcsome i hi]
        rw [← Option.ne_none_iff_isSome]
        have hilt : i < col.length := by rw [hclen]; exact hi
        exact hcsome _ (getD_mem_of_lt col none i hilt)
    have hcross : ∀ i, i < ts.dates.length →
        crossAt (ts.columns.map g) (ts.dates.getD i 0) =
          some (ts.data.getD i []) := by
      intro i hi
      have hidata : i < ts.data.length := by rw [hlen]; exact hi
      rw [crossAt_all_found _ _ (hfind i hi)]
      congr 1
      rw [List.map_map]
      have hstep1 : ts.columns.map
          ((fun s => s.values.lookup (ts.dates.getD i 0)) ∘ g) =
          ts.columns.map (fun col => col.getD i none) := by
        apply List.map_congr_left
        intro col hc
        obtain ⟨hclen, hcsome⟩ := hcol_shape col hc
        show ((ts.dates.zip col).filterMap
            (fun p => p.2.map (fun x => (p.1, x)))).lookup
            (ts.dates.getD i 0) = _
        exact lookup_filterMap_zip ts.dates col hclen hs.nodup hcsome i hi
      rw [hstep1]
      show ((List.range ts.width).map
          (fun j => ts.data.map (fun r => r.getD j none))).map
          (fun col => col.getD i none) = _
      rw [List.map_map]
      have hstep2 : (List.range ts.width).map
          ((fun col => col.getD i none) ∘
            fun j => ts.data.map (fun r => r.getD j none)) =
          (List.range ts.width).map
            (fun j => (ts.data.getD i []).getD j none) := by
        apply List.map_congr_left
        intro j _
        exact getD_map_col ts.data j i hidata
      rw [hstep2]
      have hrlen : (ts.data.getD i []).length = w :=
        hrows _ (getD_mem_of_lt ts.data [] i hidata)
      rw [hwidth, ← hrlen, map_range_getD]
    have hF : ∀ i, i < ts.dates.length →
        keepRow (ts.columns.map g) (ts.dates.getD i 0) =
          some (ts.dates.getD i 0, ts.data.getD i []) := by
      intro i hi
      have hidata : i < ts.data.length := by rw [hlen]; exact hi
      have hrlen : (ts.data.getD i []).length = w :=
        hrows _ (getD_mem_of_lt ts.data [] i hidata)
      unfold keepRow
      rw [hcross i hi]
      cases hrow : ts.data.getD i [] with
      | nil =>
        rw [hrow] at hrlen
        rw [← hrlen] at hw
        cases hw
      | cons c cs => rfl
    -- assembling the cleaned store
    unfold TS.clean
    rw [hmapM]
    show Except.ok _ = Except.ok ts
    refine congrArg Except.ok ?_
    show (⟨((((((ts.columns.map g).map
          (fun s => s.values.map Prod.fst)).flatten).dedup).insertionSort
            (fun a b => a ≤ b)).filterMap (keepRow (ts.columns.map g))).map
            Prod.fst,
        ((((((ts.columns.map g).map
          (fun s => s.values.map Prod.fst)).flatten).dedup).insertionSort
            (fun a b => a ≤ b)).filterMap (keepRow (ts.columns.map g))).map
            Prod.snd⟩ : TS (Option ℚ)) = ts
    have hlists : (ts.columns.map g).map (fun s => s.values.map Prod.fst) =
        ts.columns.map (fun _ => ts.dates) := by
      rw [List.map_map]
      apply List.map_congr_left
      intro col hc
      obtain ⟨hclen, hcsome⟩ := hcol_shape col hc
      exact map_fst_filterMap_zip ts.dates col hclen hcsome
    have hcols_ne : ∃ c, c ∈ ts.columns := by
      apply List.exists_mem_of_length_pos
      show 0 < ((List.range ts.width).map _).length
      rw [List.length_map, List.length_range, hwidth]
      exact hw
    obtain ⟨col₀, hcol₀⟩ := hcols_ne
    have hsorted_eq : ((((ts.columns.map (fun _ => ts.dates)).flatten).dedup).insertionSort
        (fun a b => a ≤ b)) = ts.dates := by
      have hperm : ((((ts.columns.map
          (fun _ => ts.dates)).flatten).dedup).insertionSort
          (fun a b => a ≤ b)).Perm ts.dates := by
        refine (List.perm_insertionSort _ _).trans ?_
        rw [List.perm_ext_iff_of_nodup (List.nodup_dedup _) hs.nodup]
        intro a
        rw [List.mem_dedup, List.mem_flatten]
        constructor
        · rintro ⟨l, hl, hal⟩
          obtain ⟨c, -, rfl⟩ := List.mem_map.mp hl
          exact hal
        · intro ha
          exact ⟨ts.dates, List.mem_map.mpr ⟨col₀, hcol₀, rfl⟩, ha⟩
      exact List.eq_of_perm_of_sorted hperm (List.sorted_insertionSort _ _)
        (hs.imp (fun h => le_of_lt h))
    have hkeep : ts.dates.filterMap (keepRow (ts.columns.map g)) =
        ts.dates.zip ts.data :=
      filterMap_eq_zip [] (keepRow (ts.columns.map g)) ts.dates ts.data
        hlen hF
    rw [hlists, hsorted_eq, hkeep, List.map_fst_zip _ _ hlen.ge,
      List.map_snd_zip _ _ hlen.le]

/-- Witness for C4: cleaning a fully-observed two-row store with a truthy
algorithm returns it unchanged. -/
theorem clean_no_missing_identity_witness :
    TS.clean ⟨[1, 2], [[some 1], [some 5]]⟩ (some constAlg) =
      .ok ⟨[1, 2], [[some 1], [some 5]]⟩ :=
  clean_no_missing_identity ⟨[1, 2], [[some 1], [some 5]]⟩ 1 (some constAlg)
    ⟨by decide, rfl, by decide⟩ (by decide) (by decide)

/-- C2: evaluation of `clean` at a failing input.  On keys `[1,2,3]` with one
column `[1, NaN, 3]` and a truthy algorithm, the missing observation at
key 2 reaches `missings.append((dt, v))` where `dt` is the unassigned local
of the later reconciliation loop, so the call raises (UnboundLocalError)
instead of buffering the current key `2`. -/
theorem clean_missing_key_bug :
    TS.clean ⟨[1, 2, 3], [[some 1], [none], [some 3]]⟩ (some constAlg) =
      .error () := rfl

/-- C8 counterexample: a non-empty store whose second column is entirely
missing, cleaned with a (truthy) algorithm, does not return the claimed
empty store — the first column's missing observation at key 2 hits the
unassigned `dt` and `clean` raises instead of returning. -/
theorem clean_all_missing_column_counterexample :
    TS.clean ⟨[1, 2, 3], [[some 1, none], [none, none], [some 3, none]]⟩
      (some constAlg) = .error () := rfl

/-- C8 amended: whenever `clean` returns a store at all, any store with a
column that never establishes `valid_start` (each of its values missing)
yields the empty store (0 rows): that column is treated as in-window for
every key and has no produced entry, so every candidate row is dropped. -/
theorem clean_all_missing_column_empty (ts : TS (Option ℚ))
    (alg : Option Algo) (out : TS (Option ℚ))
    (hcol : ∃ col ∈ ts.columns, ∀ v ∈ col, v = none)
    (hok : ts.clean alg = .ok out) :
    out.dates = [] ∧ out.data = [] := by
  obtain ⟨col, hc, hcnone⟩ := hcol
  unfold TS.clean at hok
  cases hmapM : ts.columns.mapM (fun col => scanColumn alg (ts.dates.zip col)
      ⟨none, none, none, [], []⟩) with
  | error e => rw [hmapM] at hok; cases hok
  | ok scans =>
    rw [hmapM] at hok
    have hout : out =
        ⟨(((((scans.map (fun s => s.values.map Prod.fst)).flatten).dedup).insertionSort
            (fun a b => a ≤ b)).filterMap (keepRow scans)).map Prod.fst,
         (((((scans.map (fun s => s.values.map Prod.fst)).flatten).dedup).insertionSort
            (fun a b => a ≤ b)).filterMap (keepRow scans)).map Prod.snd⟩ :=
      (Except.ok.inj hok).symm
    have hscan : scanColumn alg (ts.dates.zip col)
        ⟨none, none, none, [], []⟩ = .ok ⟨none, none, none, [], []⟩ := by
      apply scanColumn_all_none
      · intro p hp
        exact hcnone p.2 (List.of_mem_zip hp).2
      · rfl
      · rfl
    obtain ⟨s, hsmem, hseq⟩ := mapM_mem_ok _ ts.columns scans hmapM col hc
    rw [hscan] at hseq
    have hs0 : s = ⟨none, none, none, [], []⟩ := (Except.ok.inj hseq).symm
    have hveto : ∀ dt, crossAt scans dt = none := by
      intro dt
      apply crossAt_veto dt scans s hsmem
      · rw [hs0]; rfl
      · rw [hs0]; rfl
    have hkeepnone : ∀ dt, keepRow scans dt = none := by
      intro dt
      unfold keepRow
      rw [hveto dt]
    have hfm : ∀ l : List Int, l.filterMap (keepRow scans) = [] := by
      intro l
      induction l with
      | nil => rfl
      | cons a t ih => rw [List.filterMap_cons, hkeepnone a, ih]
    rw [hout]
    constructor
    · show (List.filterMap (keepRow scans) _).map Prod.fst = []
      rw [hfm]
      rfl
    · show (List.filterMap (keepRow scans) _).map Prod.snd = []
      rw [hfm]
      rfl

/-- Witness for C8 (amended): a two-row store whose only column is entirely
missing, cleaned with `algorithm = None`, does complete, and the theorem
applies to its output (the empty store). -/
theorem clean_all_missing_column_empty_witness :
    (⟨[], []⟩ : TS (Option ℚ)).dates = [] ∧
    (⟨[], []⟩ : TS (Option ℚ)).data = [] :=
  clean_all_missing_column_empty ⟨[1, 2], [[none], [none]]⟩ none ⟨[], []⟩
    ⟨[none, none], by decide, by decide⟩ rfl

/-! ## The merge engine -/

/-- `Numpy.merge` for two stores (np.py lines 137-161), modelled from the
spec where it leans on helpers outside the sources at hand (`ashash` /
`getts` from `dynts/utils`): the union of the two key sets is taken
(`alldates = set(self.dates()); alldates.union(ts.dates())`); for each
union key each source contributes its observed row if present, else
`np.array([fill]*count)` (`h.get(dt, ln)`), and the two contributions are
concatenated (`np.hstack`); per spec §4.5 the resulting store's keys are
emitted in ascending sorted order. -/
def TS.merge (a b : TS ℚ) (fill : ℚ) : TS ℚ :=
  let allDates := ((a.dates ++ b.dates).dedup).insertionSort
    (fun x y => x ≤ y)
  ⟨allDates,
   allDates.map (fun dt =>
     (match rowAt a.dates a.data dt with
      | some r => r
      | none => List.replicate a.width fill) ++
     (match rowAt b.dates b.data dt with
      | some r => r
      | none => List.replicate b.width fill))⟩

theorem rowAt_map_self {α : Type} (f : Int → List α) :
    ∀ (ds : List Int) (k : Int), k ∈ ds →
    rowAt ds (ds.map f) k = some (f k) := by
  intro ds
  induction ds with
  | nil => intro k hk; cases hk
  | cons d t ih =>
    intro k hk
    rw [List.map_cons, rowAt_cons]
    by_cases hkd : k = d
    · rw [if_pos hkd, hkd]
    · rw [if_neg hkd]
      exact ih k ((List.mem_cons.mp hk).resolve_left hkd)

theorem mem_of_rowAt_eq_some {α : Type} (ds : List Int) (rs : List (List α))
    (k : Int) (r : List α) (h : rowAt ds rs k = some r) : k ∈ ds := by
  by_contra hk
  rw [rowAt_eq_none_of_not_mem ds rs k hk] at h
  cases h

/-- C6: merging two well-formed stores with disjoint key sets produces a
store of length `len(a) + len(b)` whose keys are the union of both key
sets in strictly ascending order; every row whose key comes only from `a`
is `a`'s row followed by the fill value repeated over all of `b`'s
columns, and every row whose key comes only from `b` is the fill value
repeated over all of `a`'s columns followed by `b`'s row. -/
theorem merge_disjoint (a b : TS ℚ) (fill : ℚ) (wa wb : Nat)
    (hva : a.Valid wa) (hvb : b.Valid wb)
    (hdisj : ∀ k, k ∈ a.dates → k ∉ b.dates) :
    (a.merge b fill).dates.length = a.dates.length + b.dates.length ∧
    List.Sorted (· < ·) (a.merge b fill).dates ∧
    (∀ k, k ∈ (a.merge b fill).dates ↔ k ∈ a.dates ∨ k ∈ b.dates) ∧
    (∀ k ra, rowAt a.dates a.data k = some ra →
      rowAt (a.merge b fill).dates (a.merge b fill).data k =
        some (ra ++ List.replicate b.width fill)) ∧
    (∀ k rb, rowAt b.dates b.data k = some rb →
      rowAt (a.merge b fill).dates (a.merge b fill).data k =
        some (List.replicate a.width fill ++ rb)) := by
  have hnda : a.dates.Nodup := hva.1.nodup
  have hndb : b.dates.Nodup := hvb.1.nodup
  have hndapp : (a.dates ++ b.dates).Nodup :=
    List.Nodup.append hnda hndb hdisj
  have hperm : (a.merge b fill).dates.Perm (a.dates ++ b.dates) := by
    show (List.insertionSort _ _).Perm _
    refine (List.perm_insertionSort _ _).trans ?_
    rw [List.dedup_eq_self.mpr hndapp]
  have hmem : ∀ k, k ∈ (a.merge b fill).dates ↔
      k ∈ a.dates ∨ k ∈ b.dates := by
    intro k
    rw [hperm.mem_iff, List.mem_append]
  have hnd : (a.merge b fill).dates.Nodup := hperm.nodup_iff.mpr hndapp
  have hsortedle : List.Sorted (fun x y => x ≤ y) (a.merge b fill).dates :=
    List.sorted_insertionSort _ _
  have hsorted : List.Sorted (· < ·) (a.merge b fill).dates := by
    have hpw := List.Pairwise.and hsortedle hnd
    exact hpw.imp (fun hab => lt_of_le_of_ne hab.1 hab.2)
  refine ⟨?_, hsorted, hmem, ?_, ?_⟩
  · rw [hperm.length_eq, List.length_append]
  · intro k ra hra
    have hka : k ∈ a.dates := mem_of_rowAt_eq_some _ _ _ _ hra
    have hkb : k ∉ b.dates := hdisj k hka
    have hkm : k ∈ (a.merge b fill).dates := (hmem k).mpr (Or.inl hka)
    have hrw := rowAt_map_self (fun dt =>
        (match rowAt a.dates a.data dt with
         | some r => r
         | none => List.replicate a.width fill) ++
        (match rowAt b.dates b.data dt with
         | some r => r
         | none => List.replicate b.width fill))
      (List.insertionSort (fun x y => x ≤ y) (a.dates ++ b.dates).dedup)
      k hkm
    show rowAt (List.insertionSort (fun x y => x ≤ y)
        (a.dates ++ b.dates).dedup)
      (List.map _ (List.insertionSort (fun x y => x ≤ y)
        (a.dates ++ b.dates).dedup)) k = _
    rw [hrw]
    simp only [hra, rowAt_eq_none_of_not_mem b.dates b.data k hkb]
  · intro k rb hrb
    have hkb : k ∈ b.dates := mem_of_rowAt_eq_some _ _ _ _ hrb
    have hka : k ∉ a.dates := fun hka => hdisj k hka hkb
    have hkm : k ∈ (a.merge b fill).dates := (hmem k).mpr (Or.inr hkb)
    have hrw := rowAt_map_self (fun dt =>
        (match rowAt a.dates a.data dt with
         | some r => r
         | none => List.replicate a.width fill) ++
        (match rowAt b.dates b.data dt with
         | some r => r
         | none => List.replicate b.width fill))
      (List.insertionSort (fun x y => x ≤ y) (a.dates ++ b.dates).dedup)
      k hkm
    show rowAt (List.insertionSort (fun x y => x ≤ y)
        (a.dates ++ b.dates).dedup)
      (List.map _ (List.insertionSort (fun x y => x ≤ y)
        (a.dates ++ b.dates).dedup)) k = _
    rw [hrw]
    simp only [hrb, rowAt_eq_none_of_not_mem a.dates a.data k hka]

/-- Witness for C6: merging the one-key one-column store `{1 ↦ [10]}` with
the one-key two-column store `{2 ↦ [20, 21]}` with fill `5`. -/
theorem merge_disjoint_witness :
    (TS.merge ⟨[1], [[10]]⟩ ⟨[2], [[20, 21]]⟩ 5).dates.length = 1 + 1 ∧
    rowAt (TS.merge ⟨[1], [[10]]⟩ ⟨[2], [[20, 21]]⟩ 5).dates
      (TS.merge ⟨[1], [[10]]⟩ ⟨[2], [[20, 21]]⟩ 5).data 1 =
      some ([10] ++ List.replicate 2 5) ∧
    rowAt (TS.merge ⟨[1], [[10]]⟩ ⟨[2], [[20, 21]]⟩ 5).dates
      (TS.merge ⟨[1], [[10]]⟩ ⟨[2], [[20, 21]]⟩ 5).data 2 =
      some (List.replicate 1 5 ++ [20, 21]) := by
  have h := merge_disjoint ⟨[1], [[10]]⟩ ⟨[2], [[20, 21]]⟩ 5 1 2
    ⟨by decide, rfl, by decide⟩ ⟨by decide, rfl, by decide⟩ (by decide)
  exact ⟨h.1, h.2.2.2.1 1 [10] rfl, h.2.2.2.2 2 [20, 21] rfl⟩

end Dynts
